import Mathlib

/-!
Shallow embedding of the core of `app/db.py` (identifier resolution,
batched edge retrieval, 1-hop expansion, attribute lookup) together with
the seed-list construction of `app/app.py`, and proofs of the claimed
properties.

Modelling conventions:
- A SQLite table is a list of rows in storage order; a `SELECT ... WHERE`
  without `ORDER BY` is modelled as `List.filter` in storage order.
- Python `dict` is an insertion-ordered association list; `d[k] = v`
  updates in place or appends.
- Python `sorted` (a stable sort) is `List.mergeSort` with the
  corresponding boolean `le` on the sort key.
- Python `set` iteration order is unspecified (hash-dependent), so
  wherever the code iterates over a set (`list(seed_set)`), the model
  takes the enumeration as an explicit parameter constrained to list the
  distinct members exactly once (`SetEnum`).  Where only membership in a
  set matters, list membership is used directly.
-/

namespace STRINGApp

/-- One row of an `edges_<variant>` table: `p1, p2, score_int`. -/
structure Edge where
  p1 : String
  p2 : String
  score : Int
deriving DecidableEq

/-- One row of the `proteins` table, restricted to the two columns the
app reads (`protein_id`, `preferred_name`); `preferred_name` is nullable. -/
structure ProteinRow where
  protein_id : String
  preferred_name : Option String
deriving DecidableEq

/-- One row of the `aliases` table; the `source` column is nullable
(`score_source` in the code handles `None`). -/
structure AliasRow where
  «alias» : String
  protein_id : String
  source : Option String
  taxon_id : String
deriving DecidableEq

/-- Result row of the alias lookup query in `resolve_ids`
(`SELECT a.protein_id, a.source, p.preferred_name ... LEFT JOIN`). -/
structure AliasHit where
  protein_id : String
  source : Option String
  preferred_name : Option String
deriving DecidableEq

/-- The dataclass `ResolvedItem` of `app/db.py`. -/
structure ResolvedItem where
  query : String
  status : String
  protein_id : Option String
  preferred_name : Option String
  source : Option String
  candidates : Option String
deriving DecidableEq

/-- Fuel-driven core of `chunked`; the fuel (an upper bound on the list
length) only makes the recursion structural, it never changes the result. -/
def chunkedAux : Nat → List α → Nat → List (List α)
  | 0, _, _ => []
  | fuel + 1, l, n =>
    if l.isEmpty ∨ n = 0 then []
    else l.take n :: chunkedAux fuel (l.drop n) n

/-- Helper `_chunked(seq, n)` of `app/db.py`: split a list into windows
of `n` elements (the code always uses `n = 900`).  For `n = 0` Python's
`range` would raise; the model returns `[]`. -/
def chunked (l : List α) (n : Nat) : List (List α) := chunkedAux l.length l n

theorem chunkedAux_flatten :
    ∀ (fuel : Nat) (l : List α) (n : Nat), l.length ≤ fuel → n ≠ 0 →
      (chunkedAux fuel l n).flatten = l := by
  intro fuel
  induction fuel with
  | zero =>
    intro l n hl hn
    have : l = [] := List.eq_nil_of_length_eq_zero (Nat.le_zero.mp hl)
    simp [this, chunkedAux]
  | succ fuel ih =>
    intro l n hl hn
    by_cases he : l.isEmpty
    · have : l = [] := List.isEmpty_iff.mp he
      simp [this, chunkedAux]
    · rw [chunkedAux, if_neg (by simp [he, hn])]
      have hlen : (l.drop n).length ≤ fuel := by
        have h1 : l ≠ [] := fun h0 => he (by simp [h0])
        have h2 : 0 < l.length := List.length_pos.mpr h1
        simp only [List.length_drop]
        omega
      simp only [List.flatten_cons, ih (l.drop n) n hlen hn, List.take_append_drop]

theorem chunked_flatten (l : List α) (n : Nat) (hn : n ≠ 0) :
    (chunked l n).flatten = l :=
  chunkedAux_flatten l.length l n le_rfl hn

theorem mem_chunked {l : List α} {n : Nat} (hn : n ≠ 0) (a : α) :
    (∃ c ∈ chunked l n, a ∈ c) ↔ a ∈ l := by
  have h := List.mem_flatten (a := a) (L := chunked l n)
  rw [chunked_flatten l n hn] at h
  exact h.symm

/-- Model of a Python `dict` assignment `d[k] = combine(d.get(k))`:
if the key is present, its value is updated in place (insertion order
kept); otherwise the pair `(k, d)` is appended at the end.  All dict
updates in `app/db.py` are instances of this. -/
def upsert {κ ν : Type} [DecidableEq κ] (acc : List (κ × ν)) (k : κ) (f : ν → ν) (d : ν) :
    List (κ × ν) :=
  match acc with
  | [] => [(k, d)]
  | (k0, v) :: rest => if k0 = k then (k0, f v) :: rest else (k0, v) :: upsert rest k f d

theorem keys_upsert {κ ν : Type} [DecidableEq κ] (acc : List (κ × ν)) (k : κ) (f : ν → ν)
    (d : ν) :
    (upsert acc k f d).map Prod.fst =
      if k ∈ acc.map Prod.fst then acc.map Prod.fst else acc.map Prod.fst ++ [k] := by
  induction acc with
  | nil => simp [upsert]
  | cons kv rest ih =>
    obtain ⟨k0, v⟩ := kv
    by_cases hk : k0 = k
    · subst hk
      simp [upsert]
    · have hne : k ≠ k0 := fun he => hk he.symm
      simp only [upsert, if_neg hk, List.map_cons, ih, List.mem_cons]
      by_cases hm : k ∈ rest.map Prod.fst <;> simp [hm, hne]

theorem lookup_upsert_self {κ ν : Type} [DecidableEq κ] [BEq κ] [LawfulBEq κ]
    (acc : List (κ × ν)) (k : κ) (f : ν → ν) (d : ν) :
    (upsert acc k f d).lookup k =
      match acc.lookup k with
      | some v => some (f v)
      | none => some d := by
  induction acc with
  | nil => simp [upsert, List.lookup]
  | cons kv rest ih =>
    obtain ⟨k0, v⟩ := kv
    by_cases hk : k0 = k
    · subst hk
      simp [upsert, List.lookup]
    · have hne : k ≠ k0 := fun he => hk he.symm
      have hk' : ¬(k == k0) := by simp [hne]
      simp only [upsert, if_neg hk, List.lookup, hk']
      simpa using ih

theorem lookup_upsert_ne {κ ν : Type} [DecidableEq κ] [BEq κ] [LawfulBEq κ]
    (acc : List (κ × ν)) (k k' : κ) (f : ν → ν) (d : ν) (hne : k' ≠ k) :
    (upsert acc k f d).lookup k' = acc.lookup k' := by
  induction acc with
  | nil =>
    have : ¬(k' == k) := by simp [hne]
    simp [upsert, List.lookup, this]
  | cons kv rest ih =>
    obtain ⟨k0, v⟩ := kv
    by_cases hk : k0 = k
    · subst hk
      have : ¬(k' == k0) := by simp [hne]
      simp [upsert, List.lookup, this]
    · by_cases hk0 : k' = k0
      · subst hk0
        simp [upsert, if_neg hk, List.lookup]
      · have : ¬(k' == k0) := by simp [hk0]
        simp [upsert, if_neg hk, List.lookup, this, ih]

theorem nodup_keys_upsert {κ ν : Type} [DecidableEq κ] (acc : List (κ × ν)) (k : κ)
    (f : ν → ν) (d : ν) (h : (acc.map Prod.fst).Nodup) :
    ((upsert acc k f d).map Prod.fst).Nodup := by
  rw [keys_upsert]
  by_cases hm : k ∈ acc.map Prod.fst
  · simpa [hm]
  · simp only [if_neg hm]
    exact List.Nodup.append h (List.nodup_singleton k) (by simpa using hm)

/-- With duplicate-free keys, association-list membership agrees with
`List.lookup`. -/
theorem mem_iff_lookup {κ ν : Type} [DecidableEq κ] [BEq κ] [LawfulBEq κ]
    (acc : List (κ × ν)) (h : (acc.map Prod.fst).Nodup) (k : κ) (v : ν) :
    (k, v) ∈ acc ↔ acc.lookup k = some v := by
  induction acc with
  | nil => simp [List.lookup]
  | cons kv rest ih =>
    obtain ⟨k0, v0⟩ := kv
    simp only [List.map_cons, List.nodup_cons] at h
    by_cases hk : k = k0
    · subst hk
      have hnotin : ∀ w, (k, w) ∉ rest := by
        intro w hw
        exact h.1 (List.mem_map_of_mem Prod.fst hw)
      simp only [List.lookup, beq_self_eq_true, List.mem_cons]
      constructor
      · rintro (he | hm)
        · simp [Prod.mk.injEq] at he
          simp [he]
        · exact absurd hm (hnotin v)
      · intro he
        simp at he
        simp [he]
    · have : ¬(k == k0) := by simp [hk]
      simp [List.lookup, this, ih h.2, hk]

/-- Function `fetch_edges_induced` of `app/db.py`: for each 900-sized
chunk of the distinct ids, the SQL query returns the stored rows (in
storage order) with `score_int >= thr` and `p1` in the chunk; rows whose
`p2` is not in the id set are then dropped in Python.  `protein_ids.dedup`
stands for one fixed enumeration of `set(protein_ids)`; every property
proved below is independent of the enumeration order. -/
def fetch_edges_induced (edges : List Edge) (protein_ids : List String)
    (score_thr_int : Int) : List Edge :=
  if protein_ids = [] then []
  else
    let pid_set := protein_ids.dedup
    (chunked pid_set 900).flatMap (fun chunk =>
      (edges.filter (fun e => decide (score_thr_int ≤ e.score ∧ e.p1 ∈ chunk))).filter
        (fun e => decide (e.p2 ∈ pid_set)))

/-- Claim C3: an edge is returned by `fetch_edges_induced` exactly when it
is a stored edge of the queried variant, meets the score threshold, and
has both endpoints in the id set. -/
theorem fetch_edges_induced_mem (edges : List Edge) (protein_ids : List String)
    (score_thr_int : Int) (e : Edge) :
    e ∈ fetch_edges_induced edges protein_ids score_thr_int ↔
      e ∈ edges ∧ score_thr_int ≤ e.score ∧ e.p1 ∈ protein_ids ∧ e.p2 ∈ protein_ids := by
  unfold fetch_edges_induced
  by_cases hp : protein_ids = []
  · simp [hp]
  · simp only [if_neg hp, List.mem_flatMap, List.mem_filter, decide_eq_true_eq]
    constructor
    · rintro ⟨chunk, hchunk, ⟨⟨he, hsc, hp1⟩, hp2⟩⟩
      have hp1' : e.p1 ∈ protein_ids.dedup :=
        (mem_chunked (l := protein_ids.dedup) (n := 900) (by omega) e.p1).mp
          ⟨chunk, hchunk, hp1⟩
      exact ⟨he, hsc, List.mem_dedup.mp hp1', List.mem_dedup.mp hp2⟩
    · rintro ⟨he, hsc, hp1, hp2⟩
      obtain ⟨chunk, hchunk, hp1'⟩ :=
        (mem_chunked (l := protein_ids.dedup) (n := 900) (by omega) e.p1).mpr
          (List.mem_dedup.mpr hp1)
      exact ⟨chunk, hchunk, ⟨⟨he, hsc, hp1'⟩, List.mem_dedup.mpr hp2⟩⟩

/-- The dict update in `fetch_edges_adjacent`:
`if key not in uniq or sc > uniq[key]: uniq[key] = sc`. -/
def dedupMaxIns (acc : List ((String × String) × Int)) (k : String × String) (sc : Int) :
    List ((String × String) × Int) :=
  upsert acc k (fun v => if v < sc then sc else v) sc

/-- The union of the two batched passes of `fetch_edges_adjacent`
(anchor on `p1`, then anchor on `p2`), per 900-sized chunk of the
distinct seed ids, each pass returning stored rows in storage order. -/
def adjacentRaw (edges : List Edge) (seed_ids : List String) (score_thr_int : Int) :
    List Edge :=
  (chunked seed_ids.dedup 900).flatMap (fun chunk =>
    edges.filter (fun e => decide (score_thr_int ≤ e.score ∧ e.p1 ∈ chunk)) ++
    edges.filter (fun e => decide (score_thr_int ≤ e.score ∧ e.p2 ∈ chunk)))

/-- Function `fetch_edges_adjacent` of `app/db.py`: collect both passes,
then deduplicate by canonical pair keeping the maximum score, in first-seen
key order (Python dict semantics). -/
def fetch_edges_adjacent (edges : List Edge) (seed_ids : List String)
    (score_thr_int : Int) : List Edge :=
  if seed_ids = [] then []
  else
    let collected := adjacentRaw edges seed_ids score_thr_int
    let uniq := collected.foldl (fun acc e => dedupMaxIns acc (e.p1, e.p2) e.score) []
    uniq.map (fun kv => ⟨kv.1.1, kv.1.2, kv.2⟩)

theorem mem_adjacentRaw (edges : List Edge) (seed_ids : List String)
    (score_thr_int : Int) (d : Edge) :
    d ∈ adjacentRaw edges seed_ids score_thr_int ↔
      d ∈ edges ∧ score_thr_int ≤ d.score ∧ (d.p1 ∈ seed_ids ∨ d.p2 ∈ seed_ids) := by
  unfold adjacentRaw
  simp only [List.mem_flatMap, List.mem_append, List.mem_filter, decide_eq_true_eq]
  constructor
  · rintro ⟨chunk, hchunk, ⟨he, hsc, hp⟩ | ⟨he, hsc, hp⟩⟩
    · exact ⟨he, hsc, Or.inl (List.mem_dedup.mp
        ((mem_chunked (l := seed_ids.dedup) (n := 900) (by omega) d.p1).mp
          ⟨chunk, hchunk, hp⟩))⟩
    · exact ⟨he, hsc, Or.inr (List.mem_dedup.mp
        ((mem_chunked (l := seed_ids.dedup) (n := 900) (by omega) d.p2).mp
          ⟨chunk, hchunk, hp⟩))⟩
  · rintro ⟨he, hsc, hp | hp⟩
    · obtain ⟨chunk, hchunk, hp'⟩ :=
        (mem_chunked (l := seed_ids.dedup) (n := 900) (by omega) d.p1).mpr
          (List.mem_dedup.mpr hp)
      exact ⟨chunk, hchunk, Or.inl ⟨he, hsc, hp'⟩⟩
    · obtain ⟨chunk, hchunk, hp'⟩ :=
        (mem_chunked (l := seed_ids.dedup) (n := 900) (by omega) d.p2).mpr
          (List.mem_dedup.mpr hp)
      exact ⟨chunk, hchunk, Or.inr ⟨he, hsc, hp'⟩⟩

theorem foldMax_keys_nodup (l : List Edge) :
    ∀ (acc : List ((String × String) × Int)), (acc.map Prod.fst).Nodup →
      ((l.foldl (fun acc e => dedupMaxIns acc (e.p1, e.p2) e.score) acc).map
        Prod.fst).Nodup := by
  induction l with
  | nil => intro acc h; simpa using h
  | cons e rest ih =>
    intro acc h
    exact ih _ (nodup_keys_upsert acc (e.p1, e.p2) _ _ h)

/-- Core invariant of the dedup-max fold: any binding in the final dict is
either an untouched binding of the initial dict dominating all matching
edges, or is realized by some processed edge and dominates all matching
processed edges as well as any initial binding for its key. -/
theorem foldMax_lookup_spec (l : List Edge) :
    ∀ (acc : List ((String × String) × Int)) (k : String × String) (v : Int),
      (l.foldl (fun acc e => dedupMaxIns acc (e.p1, e.p2) e.score) acc).lookup k = some v →
      (acc.lookup k = some v ∧ ∀ d ∈ l, (d.p1, d.p2) = k → d.score ≤ v) ∨
      ((∃ d ∈ l, (d.p1, d.p2) = k ∧ d.score = v) ∧
        (∀ d ∈ l, (d.p1, d.p2) = k → d.score ≤ v) ∧
        (∀ w, acc.lookup k = some w → w ≤ v)) := by
  induction l with
  | nil =>
    intro acc k v h
    exact Or.inl ⟨h, by simp⟩
  | cons e rest ih =>
    intro acc k v h
    simp only [List.foldl_cons] at h
    rcases ih (dedupMaxIns acc (e.p1, e.p2) e.score) k v h with ⟨hl, hbound⟩ | ⟨hex, hbound, hacc⟩
    · by_cases hk : (e.p1, e.p2) = k
      · rw [← hk] at hl
        rw [dedupMaxIns, lookup_upsert_self] at hl
        cases hw : acc.lookup (e.p1, e.p2) with
        | none =>
          rw [hw] at hl
          simp only [Option.some.injEq] at hl
          refine Or.inr ⟨⟨e, List.mem_cons_self e rest, hk, hl⟩, ?_, ?_⟩
          · intro d hd hdk
            rcases List.mem_cons.mp hd with hde | hdr
            · subst hde; omega
            · exact hbound d hdr hdk
          · intro w hww
            rw [← hk] at hww
            rw [hww] at hw
            exact absurd hw (by simp)
        | some w =>
          rw [hw] at hl
          simp only [Option.some.injEq] at hl
          by_cases hlt : w < e.score
          · rw [if_pos hlt] at hl
            refine Or.inr ⟨⟨e, List.mem_cons_self e rest, hk, hl⟩, ?_, ?_⟩
            · intro d hd hdk
              rcases List.mem_cons.mp hd with hde | hdr
              · subst hde; omega
              · exact hbound d hdr hdk
            · intro w' hww
              rw [← hk] at hww
              rw [hww] at hw
              simp only [Option.some.injEq] at hw
              omega
          · rw [if_neg hlt] at hl
            refine Or.inl ⟨by rw [← hk, hw, hl], ?_⟩
            intro d hd hdk
            rcases List.mem_cons.mp hd with hde | hdr
            · subst hde; omega
            · exact hbound d hdr hdk
      · rw [dedupMaxIns, lookup_upsert_ne _ _ _ _ _ (fun he => hk he.symm)] at hl
        refine Or.inl ⟨hl, ?_⟩
        intro d hd hdk
        rcases List.mem_cons.mp hd with hde | hdr
        · subst hde; exact absurd hdk hk
        · exact hbound d hdr hdk
    · by_cases hk : (e.p1, e.p2) = k
      · have hsc : e.score ≤ v := by
          rw [← hk] at hacc
          rw [dedupMaxIns, lookup_upsert_self] at hacc
          cases hw : acc.lookup (e.p1, e.p2) with
          | none => exact hacc e.score (by rw [hw])
          | some w =>
            have := hacc (if w < e.score then e.score else w) (by rw [hw])
            omega
        refine Or.inr ⟨?_, ?_, ?_⟩
        · obtain ⟨d, hd, hdk, hdv⟩ := hex
          exact ⟨d, List.mem_cons_of_mem e hd, hdk, hdv⟩
        · intro d hd hdk
          rcases List.mem_cons.mp hd with hde | hdr
          · subst hde; exact hsc
          · exact hbound d hdr hdk
        · intro w hww
          rw [← hk] at hww hacc
          rw [dedupMaxIns, lookup_upsert_self, hww] at hacc
          have := hacc (if w < e.score then e.score else w) rfl
          omega
      · refine Or.inr ⟨?_, ?_, ?_⟩
        · obtain ⟨d, hd, hdk, hdv⟩ := hex
          exact ⟨d, List.mem_cons_of_mem e hd, hdk, hdv⟩
        · intro d hd hdk
          rcases List.mem_cons.mp hd with hde | hdr
          · subst hde; exact absurd hdk hk
          · exact hbound d hdr hdk
        · intro w hww
          apply hacc
          rw [dedupMaxIns, lookup_upsert_ne _ _ _ _ _ (fun he => hk he.symm)]
          exact hww

/-- Claim C4: `fetch_edges_adjacent` returns each canonical pair at most
once, every returned edge's score is realized by a qualifying stored row
for that pair, and it dominates the score of every qualifying stored row
for that pair (qualifying: meets the threshold and touches the seed set). -/
theorem fetch_edges_adjacent_dedup_max (edges : List Edge) (seed_ids : List String)
    (score_thr_int : Int) :
    ((fetch_edges_adjacent edges seed_ids score_thr_int).map
        (fun e => (e.p1, e.p2))).Nodup ∧
    (∀ e ∈ fetch_edges_adjacent edges seed_ids score_thr_int,
      ∃ d ∈ edges, (d.p1, d.p2) = (e.p1, e.p2) ∧ d.score = e.score ∧
        score_thr_int ≤ d.score ∧ (d.p1 ∈ seed_ids ∨ d.p2 ∈ seed_ids)) ∧
    (∀ e ∈ fetch_edges_adjacent edges seed_ids score_thr_int,
      ∀ d ∈ edges, (d.p1, d.p2) = (e.p1, e.p2) → score_thr_int ≤ d.score →
        (d.p1 ∈ seed_ids ∨ d.p2 ∈ seed_ids) → d.score ≤ e.score) := by
  by_cases hs : seed_ids = []
  · refine ⟨by simp [fetch_edges_adjacent, hs], ?_, ?_⟩ <;>
      simp [fetch_edges_adjacent, hs]
  · have hnodup : ((adjacentRaw edges seed_ids score_thr_int).foldl
        (fun acc e => dedupMaxIns acc (e.p1, e.p2) e.score) []).map Prod.fst |>.Nodup :=
      foldMax_keys_nodup _ [] (by simp)
    have hres : fetch_edges_adjacent edges seed_ids score_thr_int =
        ((adjacentRaw edges seed_ids score_thr_int).foldl
          (fun acc e => dedupMaxIns acc (e.p1, e.p2) e.score) []).map
            (fun kv => ⟨kv.1.1, kv.1.2, kv.2⟩) := by
      rw [fetch_edges_adjacent, if_neg hs]
    have hmem : ∀ e ∈ fetch_edges_adjacent edges seed_ids score_thr_int,
        (∃ d ∈ adjacentRaw edges seed_ids score_thr_int,
          (d.p1, d.p2) = (e.p1, e.p2) ∧ d.score = e.score) ∧
        (∀ d ∈ adjacentRaw edges seed_ids score_thr_int,
          (d.p1, d.p2) = (e.p1, e.p2) → d.score ≤ e.score) := by
      intro e he
      rw [hres] at he
      obtain ⟨kv, hkv, hkve⟩ := List.mem_map.mp he
      have hpair : (e.p1, e.p2) = kv.1 := by
        rw [← hkve]
      have hscore : e.score = kv.2 := by rw [← hkve]
      have hlook := (mem_iff_lookup _ hnodup kv.1 kv.2).mp (by simpa using hkv)
      rcases foldMax_lookup_spec _ [] kv.1 kv.2 hlook with ⟨hl, _⟩ | ⟨hex, hbound, _⟩
      · simp [List.lookup] at hl
      · constructor
        · obtain ⟨d, hd, hdk, hdv⟩ := hex
          exact ⟨d, hd, by rw [hdk, hpair], by rw [hdv, hscore]⟩
        · intro d hd hdk
          rw [hscore]
          exact hbound d hd (by rw [hdk, ← hpair])
    refine ⟨?_, ?_, ?_⟩
    · rw [hres, List.map_map]
      have : ((fun e => (e.p1, e.p2)) ∘ fun kv : (String × String) × Int =>
          (⟨kv.1.1, kv.1.2, kv.2⟩ : Edge)) = Prod.fst := by
        funext kv
        exact Prod.mk.eta
      rw [this]
      exact hnodup
    · intro e he
      obtain ⟨⟨d, hd, hdk, hdv⟩, _⟩ := hmem e he
      have := (mem_adjacentRaw edges seed_ids score_thr_int d).mp hd
      exact ⟨d, this.1, hdk, hdv, this.2.1, this.2.2⟩
    · intro e he d hd hdk hdsc hdseed
      obtain ⟨_, hbound⟩ := hmem e he
      exact hbound d ((mem_adjacentRaw edges seed_ids score_thr_int d).mpr
        ⟨hd, hdsc, hdseed⟩) hdk

/-- Witness for C4 at a concrete input: two stored rows for the canonical
pair `(A, B)` with scores 5 and 9; the pair is returned once and the
retained binding is realized by the score-9 row, which dominates. -/
theorem fetch_edges_adjacent_dedup_max_witness :
    ((fetch_edges_adjacent [⟨"A", "B", 5⟩, ⟨"A", "B", 9⟩] ["A"] 0).map
        (fun e => (e.p1, e.p2))).Nodup ∧
    (∃ d ∈ ([⟨"A", "B", 5⟩, ⟨"A", "B", 9⟩] : List Edge),
      (d.p1, d.p2) = ("A", "B") ∧ d.score = 9) ∧
    (∀ d ∈ ([⟨"A", "B", 5⟩, ⟨"A", "B", 9⟩] : List Edge),
      (d.p1, d.p2) = ("A", "B") → (0 : Int) ≤ d.score →
        (d.p1 ∈ ["A"] ∨ d.p2 ∈ ["A"]) → d.score ≤ 9) := by
  have h := fetch_edges_adjacent_dedup_max [⟨"A", "B", 5⟩, ⟨"A", "B", 9⟩] ["A"] 0
  have hmem : (⟨"A", "B", 9⟩ : Edge) ∈
      fetch_edges_adjacent [⟨"A", "B", 5⟩, ⟨"A", "B", 9⟩] ["A"] 0 := by decide
  refine ⟨h.1, ?_, ?_⟩
  · obtain ⟨d, hd, hdk, hdv, _, _⟩ := h.2.1 _ hmem
    exact ⟨d, hd, hdk, hdv⟩
  · intro d hd hdk hdsc hdseed
    exact h.2.2 _ hmem d hd hdk hdsc hdseed

/-- SQLite NOCASE collation (declared on `aliases.alias` in
`scripts/build_db.py`): case folding of the 26 ASCII upper-case letters
only. -/
def asciiLower (s : String) : String :=
  String.mk (s.data.map (fun c =>
    if 'A' ≤ c ∧ c ≤ 'Z' then Char.ofNat (c.toNat + 32) else c))

/-- The fixed `priority_sources` list of `resolve_ids`. -/
def priority_sources : List String :=
  ["Ensembl", "Ensembl_HGNC", "Ensembl_EntrezGene", "HGNC", "UniProt", "Gene_Name",
   "BLAST_UniProt", "RefSeq", "EntrezGene", "BioMart_HUGO"]

/-- Function `score_source` inside `resolve_ids`: a NULL source ranks
10000, a listed source ranks by its first index, anything else 9999. -/
def score_source (src : Option String) : Nat :=
  match src with
  | none => 10000
  | some s =>
    match priority_sources.indexOf? s with
    | some i => i
    | none => 9999

/-- The alias-lookup query of `resolve_ids`: rows of `aliases` whose
`alias` equals the query under NOCASE (optionally restricted to the given
taxon), LEFT JOINed to `proteins` for the preferred name (`protein_id` is
the primary key, so at most one row joins), capped by `LIMIT 50`, in
storage order. -/
def aliasQuery (proteins : List ProteinRow) (aliases : List AliasRow)
    (q2 : String) (taxon : Option String) : List AliasHit :=
  ((aliases.filter (fun a =>
      decide (asciiLower a.«alias» = asciiLower q2) &&
      match taxon with
      | some t => decide (a.taxon_id = t)
      | none => true)).map (fun a =>
    { protein_id := a.protein_id
      source := a.source
      preferred_name :=
        (proteins.find? (fun p => p.protein_id == a.protein_id)).bind
          (fun p => p.preferred_name) })).take 50

/-- Sort key order used on ambiguous candidates:
`key=lambda r: (score_source(r["source"]), r["protein_id"])`, ascending
lexicographically.  Python's `sorted` is a stable sort, modelled by
`List.insertionSort` with this relation.  Python compares strings by code
points, which is the lexicographic order on the character lists (`.data`). -/
abbrev candLE (a b : AliasHit) : Prop :=
  score_source a.source < score_source b.source ∨
    (score_source a.source = score_source b.source ∧
      a.protein_id.data ≤ b.protein_id.data)

instance : IsTotal AliasHit candLE := by
  constructor
  intro a b
  rcases Nat.lt_trichotomy (score_source a.source) (score_source b.source) with h | h | h
  · exact Or.inl (Or.inl h)
  · rcases le_total a.protein_id.data b.protein_id.data with h2 | h2
    · exact Or.inl (Or.inr ⟨h, h2⟩)
    · exact Or.inr (Or.inr ⟨h.symm, h2⟩)
  · exact Or.inr (Or.inl h)

instance : IsTrans AliasHit candLE := by
  constructor
  intro a b c hab hbc
  rcases hab with hab | ⟨hab, hab2⟩ <;> rcases hbc with hbc | ⟨hbc, hbc2⟩
  · exact Or.inl (by omega)
  · exact Or.inl (by omega)
  · exact Or.inl (by omega)
  · exact Or.inr ⟨by omega, le_trans hab2 hbc2⟩

/-- Python f-string formatting of one candidate in `resolve_ids`:
a NULL source prints as the string "None". -/
def fmtCand (r : AliasHit) : String :=
  r.protein_id ++ "(" ++ (match r.source with | some s => s | none => "None") ++ ")"

/-- Resolution of one trimmed, non-empty query inside the loop of
`resolve_ids`: direct primary-key match first, then the alias lookup with
the zero / one / many case split. -/
def resolveQuery (proteins : List ProteinRow) (aliases : List AliasRow)
    (q2 : String) (taxon : Option String) : ResolvedItem :=
  match proteins.find? (fun p => p.protein_id == q2) with
  | some p => ⟨q2, "resolved", some p.protein_id, p.preferred_name, some "direct", none⟩
  | none =>
    match aliasQuery proteins aliases q2 taxon with
    | [] => ⟨q2, "unresolved", none, none, none, none⟩
    | [r] => ⟨q2, "resolved", some r.protein_id, r.preferred_name, r.source, none⟩
    | r1 :: r2 :: rest =>
      match (r1 :: r2 :: rest).insertionSort candLE with
      | [] => ⟨q2, "unresolved", none, none, none, none⟩
      | best :: others =>
        ⟨q2, "ambiguous", some best.protein_id, best.preferred_name, best.source,
          some (String.intercalate "; " (((best :: others).take 10).map fmtCand))⟩

/-- Python `q.strip()`: drop leading and trailing whitespace. -/
def pyStrip (s : String) : String :=
  String.mk (((s.data.dropWhile Char.isWhitespace).reverse.dropWhile Char.isWhitespace).reverse)

/-- Function `resolve_ids` of `app/db.py`: per query, strip, skip empty,
resolve. -/
def resolve_ids (proteins : List ProteinRow) (aliases : List AliasRow)
    (queries : List String) (taxon : Option String) : List ResolvedItem :=
  match queries with
  | [] => []
  | q :: rest =>
    if pyStrip q = "" then resolve_ids proteins aliases rest taxon
    else
      resolveQuery proteins aliases (pyStrip q) taxon :: resolve_ids proteins aliases rest taxon

/-- Python `list(dict.fromkeys(l))`: deduplicate keeping the first
occurrence of each element, in order. -/
def dedupFirst (l : List String) : List String :=
  l.foldl (fun acc x => if x ∈ acc then acc else acc ++ [x]) []

/-- The list comprehension of `app/app.py` line 74:
`[r.protein_id for r in resolved if r.status in ("resolved", "ambiguous")
and r.protein_id]`; a `None` or empty (falsy) protein_id is skipped. -/
def rawSeedsOf (resolved : List ResolvedItem) : List String :=
  resolved.filterMap (fun r =>
    match r.protein_id with
    | some pid =>
      if (r.status = "resolved" ∨ r.status = "ambiguous") ∧ pid ≠ "" then some pid else none
    | none => none)

/-- The seed-list construction of `app/app.py` lines 74-75: the comprehension
above followed by `list(dict.fromkeys(seed_ids))`. -/
def seedIdsOf (resolved : List ResolvedItem) : List String :=
  dedupFirst (rawSeedsOf resolved)

/-- Recursive characterization of first-occurrence deduplication,
used only in proofs. -/
def dedupFirstRec : List String → List String
  | [] => []
  | x :: xs => x :: dedupFirstRec (xs.filter (fun y => decide (y ≠ x)))
termination_by l => l.length
decreasing_by
  simp only [List.length_cons]
  exact Nat.lt_succ_of_le (List.length_filter_le _ _)

theorem foldl_dedupFirst (l : List String) :
    ∀ acc : List String,
      l.foldl (fun acc x => if x ∈ acc then acc else acc ++ [x]) acc =
        acc ++ dedupFirstRec (l.filter (fun y => decide (y ∉ acc))) := by
  induction l with
  | nil => intro acc; simp [dedupFirstRec]
  | cons x xs ih =>
    intro acc
    by_cases hx : x ∈ acc
    · have hdx : (decide (x ∉ acc)) = false := by simp [hx]
      simp only [List.foldl_cons, if_pos hx, List.filter_cons, hdx, Bool.false_eq_true,
        if_false]
      exact ih acc
    · have hdx : (decide (x ∉ acc)) = true := by simp [hx]
      simp only [List.foldl_cons, if_neg hx, List.filter_cons, hdx, if_true]
      rw [ih (acc ++ [x]), dedupFirstRec]
      have hff : (xs.filter (fun y => decide (y ∉ acc ++ [x]))) =
          ((xs.filter (fun y => decide (y ∉ acc))).filter (fun y => decide (y ≠ x))) := by
        rw [List.filter_filter]
        apply List.filter_congr
        intro y _
        by_cases h1 : y ∈ acc <;> by_cases h2 : y = x <;> simp [h1, h2]
      rw [hff, List.append_assoc]
      rfl

theorem dedupFirst_eq_rec (l : List String) : dedupFirst l = dedupFirstRec l := by
  rw [dedupFirst, foldl_dedupFirst l []]
  simp

theorem mem_dedupFirstRec (l : List String) (y : String) :
    y ∈ dedupFirstRec l ↔ y ∈ l := by
  induction l using dedupFirstRec.induct with
  | case1 => simp [dedupFirstRec]
  | case2 x xs ih =>
    rw [dedupFirstRec]
    simp only [List.mem_cons, ih, List.mem_filter, decide_eq_true_eq]
    constructor
    · rintro (he | ⟨hm, _⟩)
      · exact Or.inl he
      · exact Or.inr hm
    · rintro (he | hm)
      · exact Or.inl he
      · by_cases he2 : y = x
        · exact Or.inl he2
        · exact Or.inr ⟨hm, he2⟩

theorem nodup_dedupFirstRec (l : List String) : (dedupFirstRec l).Nodup := by
  induction l using dedupFirstRec.induct with
  | case1 => simp [dedupFirstRec]
  | case2 x xs ih =>
    rw [dedupFirstRec, List.nodup_cons]
    refine ⟨?_, ih⟩
    intro hx
    have := (mem_dedupFirstRec _ x).mp hx
    simp at this

theorem indexOf_filter_lt (p : String → Bool) (l : List String) (a b : String)
    (ha : a ∈ l.filter p) (hb : b ∈ l.filter p)
    (hlt : (l.filter p).indexOf a < (l.filter p).indexOf b) :
    l.indexOf a < l.indexOf b := by
  induction l with
  | nil => simp at ha
  | cons y ys ih =>
    by_cases hp : p y
    · rw [List.filter_cons_of_pos hp] at ha hb hlt
      by_cases hya : y = a
      · subst hya
        have hb2 : y ≠ b := by
          intro he
          subst he
          simp [List.indexOf_cons_self] at hlt
        rw [List.indexOf_cons_self] at hlt ⊢
        rw [List.indexOf_cons_ne _ hb2]
        omega
      · by_cases hyb : y = b
        · subst hyb
          rw [List.indexOf_cons_self, List.indexOf_cons_ne _ hya] at hlt
          omega
        · rw [List.indexOf_cons_ne _ hya, List.indexOf_cons_ne _ hyb] at hlt ⊢
          have ha2 : a ∈ ys.filter p := by
            rcases List.mem_cons.mp ha with he | hm
            · exact absurd he.symm hya
            · exact hm
          have hb2 : b ∈ ys.filter p := by
            rcases List.mem_cons.mp hb with he | hm
            · exact absurd he.symm hyb
            · exact hm
          have := ih ha2 hb2 (by omega)
          omega
    · rw [List.filter_cons_of_neg hp] at ha hb hlt
      have hya : y ≠ a := by
        intro he
        subst he
        have := List.of_mem_filter ha
        exact hp this
      have hyb : y ≠ b := by
        intro he
        subst he
        have := List.of_mem_filter hb
        exact hp this
      rw [List.indexOf_cons_ne _ hya, List.indexOf_cons_ne _ hyb]
      have := ih ha hb hlt
      omega

theorem pairwise_indexOf_dedupFirstRec (l : List String) :
    (dedupFirstRec l).Pairwise (fun a b => l.indexOf a < l.indexOf b) := by
  induction l using dedupFirstRec.induct with
  | case1 => simp [dedupFirstRec]
  | case2 x xs ih =>
    rw [dedupFirstRec, List.pairwise_cons]
    constructor
    · intro b hb
      have hbm := (mem_dedupFirstRec _ b).mp hb
      have hbx : b ≠ x := by
        have := List.of_mem_filter hbm
        simpa using this
      rw [List.indexOf_cons_self, List.indexOf_cons_ne _ (fun he => hbx he.symm)]
      omega
    · refine List.Pairwise.imp_of_mem ?_ ih
      intro a b ha hb hlt
      have ham := (mem_dedupFirstRec _ a).mp ha
      have hbm := (mem_dedupFirstRec _ b).mp hb
      have hax : a ≠ x := by
        have := List.of_mem_filter ham
        simpa using this
      have hbx : b ≠ x := by
        have := List.of_mem_filter hbm
        simpa using this
      have := indexOf_filter_lt _ xs a b ham hbm hlt
      rw [List.indexOf_cons_ne _ (fun he => hax he.symm),
        List.indexOf_cons_ne _ (fun he => hbx he.symm)]
      omega

/-- Claim C6: a query whose stripped form equals an existing primary key
resolves directly (status "resolved", source "direct", no candidates),
for every alias table and every taxon filter — neither is consulted. -/
theorem resolve_ids_direct (proteins : List ProteinRow) (aliases : List AliasRow)
    (q : String) (taxon : Option String) (p : ProteinRow)
    (hq : pyStrip q ≠ "")
    (hfind : proteins.find? (fun r => r.protein_id == pyStrip q) = some p) :
    resolve_ids proteins aliases [q] taxon =
      [⟨pyStrip q, "resolved", some p.protein_id, p.preferred_name, some "direct", none⟩] := by
  rw [resolve_ids, if_neg hq, resolveQuery, hfind]
  rfl

/-- Witness for C6 at a concrete input (the spec's Scenario D shape): the
query "P1" is a primary key and is also an alias of a different id "P2";
a taxon filter is supplied; the direct match still wins. -/
theorem resolve_ids_direct_witness :
    pyStrip "P1" ≠ "" ∧
    resolve_ids [⟨"P1", some "n1"⟩] [⟨"P1", "P2", some "UniProt", "9999"⟩]
        ["P1"] (some "9999") =
      [⟨"P1", "resolved", some "P1", some "n1", some "direct", none⟩] :=
  ⟨by decide,
    resolve_ids_direct [⟨"P1", some "n1"⟩] [⟨"P1", "P2", some "UniProt", "9999"⟩]
      "P1" (some "9999") ⟨"P1", some "n1"⟩ (by decide) (by decide)⟩

/-- Claim C7: `resolve_ids` produces exactly one item per query that strips
to a non-empty string, in input order, and the seed list built from the
resolved items is duplicate-free, has the same members as the raw
comprehension, and keeps first-occurrence order (positions ordered by
first index in the raw list). -/
theorem resolve_ids_order_and_seed_dedup (proteins : List ProteinRow)
    (aliases : List AliasRow) (queries : List String) (taxon : Option String) :
    resolve_ids proteins aliases queries taxon =
      ((queries.map pyStrip).filter (fun s => decide (s ≠ ""))).map
        (fun q2 => resolveQuery proteins aliases q2 taxon) ∧
    (seedIdsOf (resolve_ids proteins aliases queries taxon)).Nodup ∧
    (∀ x, x ∈ seedIdsOf (resolve_ids proteins aliases queries taxon) ↔
        x ∈ rawSeedsOf (resolve_ids proteins aliases queries taxon)) ∧
    (seedIdsOf (resolve_ids proteins aliases queries taxon)).Pairwise
      (fun a b => (rawSeedsOf (resolve_ids proteins aliases queries taxon)).indexOf a <
        (rawSeedsOf (resolve_ids proteins aliases queries taxon)).indexOf b) := by
  refine ⟨?_, ?_, ?_, ?_⟩
  · induction queries with
    | nil => rfl
    | cons q rest ih =>
      by_cases hq : pyStrip q = ""
      · rw [resolve_ids, if_pos hq, ih]
        simp [hq]
      · rw [resolve_ids, if_neg hq, ih]
        simp [hq]
  · rw [seedIdsOf, dedupFirst_eq_rec]
    exact nodup_dedupFirstRec _
  · intro x
    rw [seedIdsOf, dedupFirst_eq_rec]
    exact mem_dedupFirstRec _ x
  · rw [seedIdsOf, dedupFirst_eq_rec]
    exact pairwise_indexOf_dedupFirstRec _

theorem indexOf?_eq_none_of_not_mem {α} [BEq α] [LawfulBEq α] (l : List α) (a : α)
    (h : a ∉ l) : l.indexOf? a = none := by
  induction l with
  | nil => rfl
  | cons x xs ih =>
    have hxa : ¬(x == a) := by
      simp only [List.mem_cons, not_or] at h
      simp only [beq_iff_eq]
      exact fun he => h.1 he.symm
    simp only [List.indexOf?, List.findIdx?_cons, hxa, Bool.false_eq_true, if_false]
    have := ih (fun hm => h (List.mem_cons_of_mem x hm))
    rw [List.indexOf?] at this
    simp [this]

theorem score_source_of_mem (s : String) (h : s ∈ priority_sources) :
    score_source (some s) < 10 := by
  fin_cases h <;> decide

theorem score_source_of_not_mem (s : String) (h : s ∉ priority_sources) :
    score_source (some s) = 9999 := by
  rw [score_source, indexOf?_eq_none_of_not_mem _ _ h]

/-- Claim C5: when the stripped query has no direct primary-key match and
the alias lookup yields at least two candidate rows, the result is
"ambiguous"; the candidates are ordered by the fixed source priority
(unranked sources after all ranked ones), ties broken by ascending
protein id; the first candidate supplies the reported fields and the
candidate string joins at most the first 10 entries as "id(source)". -/
theorem resolve_ids_ambiguous_sorted (proteins : List ProteinRow)
    (aliases : List AliasRow) (q : String) (taxon : Option String)
    (hq : pyStrip q ≠ "")
    (hdirect : proteins.find? (fun r => r.protein_id == pyStrip q) = none)
    (hrows : 2 ≤ (aliasQuery proteins aliases (pyStrip q) taxon).length) :
    (∀ s s' : String, s ∉ priority_sources → s' ∈ priority_sources →
      score_source (some s') < score_source (some s)) ∧
    ∃ best : AliasHit, ∃ others : List AliasHit,
      List.Perm (best :: others) (aliasQuery proteins aliases (pyStrip q) taxon) ∧
      (best :: others).Pairwise candLE ∧
      resolve_ids proteins aliases [q] taxon =
        [⟨pyStrip q, "ambiguous", some best.protein_id, best.preferred_name, best.source,
          some (String.intercalate "; " (((best :: others).take 10).map fmtCand))⟩] := by
  constructor
  · intro s s' hs hs'
    rw [score_source_of_not_mem s hs]
    have := score_source_of_mem s' hs'
    omega
  · rcases hl : aliasQuery proteins aliases (pyStrip q) taxon with _ | ⟨r1, _ | ⟨r2, rest⟩⟩
    · rw [hl] at hrows
      simp at hrows
    · rw [hl] at hrows
      simp at hrows
    · rcases hs : (r1 :: r2 :: rest).insertionSort candLE with _ | ⟨best, others⟩
      · have := List.perm_insertionSort candLE (r1 :: r2 :: rest)
        rw [hs] at this
        have := this.length_eq
        simp at this
      · refine ⟨best, others, ?_, ?_, ?_⟩
        · rw [← hs]
          exact List.perm_insertionSort candLE (r1 :: r2 :: rest)
        · rw [← hs]
          exact List.sorted_insertionSort candLE (r1 :: r2 :: rest)
        · rw [resolve_ids, if_neg hq]
          simp only [resolveQuery, hdirect, hl, hs]
          rfl

/-- Witness for C5 at a concrete input (the spec's Scenario B): alias "X"
matches two records with sources "UniProt" (ranked) and "UnknownSrc"
(unranked). -/
theorem resolve_ids_ambiguous_sorted_witness :
    pyStrip "X" ≠ "" ∧
    (∀ s s' : String, s ∉ priority_sources → s' ∈ priority_sources →
      score_source (some s') < score_source (some s)) ∧
    ∃ best : AliasHit, ∃ others : List AliasHit,
      List.Perm (best :: others) (aliasQuery [⟨"id1", some "N1"⟩, ⟨"id2", some "N2"⟩]
        [⟨"X", "id1", some "UniProt", "9606"⟩, ⟨"X", "id2", some "UnknownSrc", "9606"⟩]
        (pyStrip "X") none) ∧
      (best :: others).Pairwise candLE ∧
      resolve_ids [⟨"id1", some "N1"⟩, ⟨"id2", some "N2"⟩]
        [⟨"X", "id1", some "UniProt", "9606"⟩, ⟨"X", "id2", some "UnknownSrc", "9606"⟩]
        ["X"] none =
        [⟨pyStrip "X", "ambiguous", some best.protein_id, best.preferred_name, best.source,
          some (String.intercalate "; " (((best :: others).take 10).map fmtCand))⟩] := by
  have h := resolve_ids_ambiguous_sorted [⟨"id1", some "N1"⟩, ⟨"id2", some "N2"⟩]
    [⟨"X", "id1", some "UniProt", "9606"⟩, ⟨"X", "id2", some "UnknownSrc", "9606"⟩]
    "X" none (by decide) (by decide) (by decide)
  exact ⟨by decide, h.1, h.2⟩

/-- The dict update in `expand_1hop`:
`neighbor_score[x] = neighbor_score.get(x, 0) + sc`. -/
def addScore (acc : List (String × Int)) (k : String) (sc : Int) : List (String × Int) :=
  upsert acc k (fun v => v + sc) sc

/-- The neighbor-score accumulation loop of `expand_1hop`: an edge whose
endpoints are exactly one seed and one non-seed adds its score to the
non-seed endpoint's total; all other edges contribute nothing. -/
def neighborScores (enum : List String) (adj : List Edge) : List (String × Int) :=
  adj.foldl (fun acc e =>
    if e.p1 ∈ enum ∧ e.p2 ∉ enum then addScore acc e.p2 e.score
    else if e.p2 ∈ enum ∧ e.p1 ∉ enum then addScore acc e.p1 e.score
    else acc) []

/-- Neighbor ranking order of `expand_1hop`:
`key=lambda x: (-x[1], x[0])`, i.e. descending total score, ties by
ascending identifier (Python string order = code-point lexicographic). -/
abbrev rankLE (a b : String × Int) : Prop :=
  b.2 < a.2 ∨ (a.2 = b.2 ∧ a.1.data ≤ b.1.data)

instance : IsTotal (String × Int) rankLE := by
  constructor
  intro a b
  rcases Int.lt_trichotomy a.2 b.2 with h | h | h
  · exact Or.inr (Or.inl h)
  · rcases le_total a.1.data b.1.data with h2 | h2
    · exact Or.inl (Or.inr ⟨h, h2⟩)
    · exact Or.inr (Or.inr ⟨h.symm, h2⟩)
  · exact Or.inl (Or.inl h)

instance : IsTrans (String × Int) rankLE := by
  constructor
  intro a b c hab hbc
  rcases hab with hab | ⟨hab, hab2⟩ <;> rcases hbc with hbc | ⟨hbc, hbc2⟩
  · exact Or.inl (by omega)
  · exact Or.inl (by omega)
  · exact Or.inl (by omega)
  · exact Or.inr ⟨by omega, le_trans hab2 hbc2⟩

/-- A valid iteration order of Python's `set(seed_ids)`: CPython iterates
a set in an unspecified, hash-dependent order, so the model quantifies
over every duplicate-free enumeration of the distinct members. -/
abbrev SetEnum (seed_ids enum : List String) : Prop :=
  enum.Nodup ∧ (∀ x ∈ enum, x ∈ seed_ids) ∧ (∀ x ∈ seed_ids, x ∈ enum)

/-- Function `expand_1hop` of `app/db.py`.  `enum` is the iteration order
of `seed_set = set(seed_ids)` (see `SetEnum`): the code builds
`nodes = list(seed_set)`, queries adjacency with that list, accumulates
neighbor scores keyed by non-seed endpoints, and if the seed count is
below `max_nodes` and some neighbor exists, appends the top
`max_nodes - len(nodes)` neighbors in rank order. -/
def expand_1hop (edges : List Edge) (seed_ids : List String) (score_thr_int : Int)
    (max_nodes : Nat) (enum : List String) : List String × List Edge :=
  if enum = [] then ([], [])
  else
    let adj := fetch_edges_adjacent edges enum score_thr_int
    let ns := neighborScores enum adj
    let nodes :=
      if enum.length < max_nodes ∧ ns ≠ [] then
        enum ++ ((ns.insertionSort rankLE).take (max_nodes - enum.length)).map Prod.fst
      else enum
    (nodes, fetch_edges_induced edges nodes score_thr_int)

/-- The multiset of score contributions that the accumulation loop of
`expand_1hop` credits to the node `k`: scores of retrieved adjacent edges
joining a seed (member of `seeds`) to the non-seed `k`. -/
def contribList (adj : List Edge) (seeds : List String) (k : String) : List Int :=
  adj.filterMap (fun e =>
    if e.p1 ∈ seeds ∧ e.p2 ∉ seeds ∧ e.p2 = k then some e.score
    else if e.p2 ∈ seeds ∧ e.p1 ∉ seeds ∧ e.p1 = k then some e.score
    else none)

theorem expand_1hop_fst (edges : List Edge) (seed_ids : List String)
    (score_thr_int : Int) (max_nodes : Nat) (enum : List String) :
    (expand_1hop edges seed_ids score_thr_int max_nodes enum).1 =
      if enum = [] then []
      else if enum.length < max_nodes ∧
          neighborScores enum (fetch_edges_adjacent edges enum score_thr_int) ≠ [] then
        enum ++ (((neighborScores enum
          (fetch_edges_adjacent edges enum score_thr_int)).insertionSort
            rankLE).take (max_nodes - enum.length)).map Prod.fst
      else enum := by
  rw [expand_1hop]
  by_cases h : enum = []
  · simp [h]
  · simp only [if_neg h]

theorem lookup_isSome_iff_mem_keys {κ ν : Type} [BEq κ] [LawfulBEq κ]
    (acc : List (κ × ν)) (k : κ) :
    (acc.lookup k).isSome ↔ k ∈ acc.map Prod.fst := by
  induction acc with
  | nil => simp [List.lookup]
  | cons kv rest ih =>
    obtain ⟨k0, v0⟩ := kv
    by_cases hk : k = k0
    · subst hk
      simp [List.lookup]
    · have : ¬(k == k0) := by simp [hk]
      simp [List.lookup, this, ih, hk]

theorem neighborScores_keys_not_seed (enum : List String) (adj : List Edge) :
    ∀ kv ∈ neighborScores enum adj, kv.1 ∉ enum := by
  rw [neighborScores]
  suffices h : ∀ (acc : List (String × Int)), (∀ kv ∈ acc, kv.1 ∉ enum) →
      ∀ kv ∈ adj.foldl (fun acc e =>
        if e.p1 ∈ enum ∧ e.p2 ∉ enum then addScore acc e.p2 e.score
        else if e.p2 ∈ enum ∧ e.p1 ∉ enum then addScore acc e.p1 e.score
        else acc) acc, kv.1 ∉ enum by
    exact h [] (by simp)
  induction adj with
  | nil => intro acc hacc kv hkv; exact hacc kv hkv
  | cons e rest ih =>
    intro acc hacc kv hkv
    simp only [List.foldl_cons] at hkv
    have hstep : ∀ (k : String), k ∉ enum → ∀ kv2 ∈ addScore acc k e.score, kv2.1 ∉ enum := by
      intro k hk kv2 hkv2
      have := List.mem_map_of_mem Prod.fst hkv2
      rw [addScore, keys_upsert] at this
      by_cases hm : k ∈ acc.map Prod.fst
      · rw [if_pos hm] at this
        obtain ⟨kv3, hkv3, he3⟩ := List.mem_map.mp this
        rw [← he3]
        exact hacc kv3 hkv3
      · rw [if_neg hm] at this
        rcases List.mem_append.mp this with hin | hin
        · obtain ⟨kv3, hkv3, he3⟩ := List.mem_map.mp hin
          rw [← he3]
          exact hacc kv3 hkv3
        · simp at hin
          rw [hin]
          exact hk
    by_cases h1 : e.p1 ∈ enum ∧ e.p2 ∉ enum
    · rw [if_pos h1] at hkv
      exact ih (addScore acc e.p2 e.score) (hstep e.p2 h1.2) kv hkv
    · rw [if_neg h1] at hkv
      by_cases h2 : e.p2 ∈ enum ∧ e.p1 ∉ enum
      · rw [if_pos h2] at hkv
        exact ih (addScore acc e.p1 e.score) (hstep e.p1 h2.2) kv hkv
      · rw [if_neg h2] at hkv
        exact ih acc hacc kv hkv

theorem neighborScores_keys_nodup (enum : List String) (adj : List Edge) :
    ((neighborScores enum adj).map Prod.fst).Nodup := by
  rw [neighborScores]
  suffices h : ∀ (acc : List (String × Int)), (acc.map Prod.fst).Nodup →
      ((adj.foldl (fun acc e =>
        if e.p1 ∈ enum ∧ e.p2 ∉ enum then addScore acc e.p2 e.score
        else if e.p2 ∈ enum ∧ e.p1 ∉ enum then addScore acc e.p1 e.score
        else acc) acc).map Prod.fst).Nodup by
    exact h [] (by simp)
  induction adj with
  | nil => intro acc hacc; exact hacc
  | cons e rest ih =>
    intro acc hacc
    simp only [List.foldl_cons]
    by_cases h1 : e.p1 ∈ enum ∧ e.p2 ∉ enum
    · rw [if_pos h1]
      exact ih _ (nodup_keys_upsert _ _ _ _ hacc)
    · rw [if_neg h1]
      by_cases h2 : e.p2 ∈ enum ∧ e.p1 ∉ enum
      · rw [if_pos h2]
        exact ih _ (nodup_keys_upsert _ _ _ _ hacc)
      · rw [if_neg h2]
        exact ih acc hacc

theorem neighborScores_go (enum : List String) (adj : List Edge) :
    ∀ (acc : List (String × Int)) (k : String),
      (adj.foldl (fun acc e =>
        if e.p1 ∈ enum ∧ e.p2 ∉ enum then addScore acc e.p2 e.score
        else if e.p2 ∈ enum ∧ e.p1 ∉ enum then addScore acc e.p1 e.score
        else acc) acc).lookup k =
        match acc.lookup k with
        | none =>
          if contribList adj enum k = [] then none
          else some (contribList adj enum k).sum
        | some v => some (v + (contribList adj enum k).sum) := by
  induction adj with
  | nil =>
    intro acc k
    cases hacc : acc.lookup k <;> simp [contribList, hacc]
  | cons e rest ih =>
    intro acc k
    simp only [List.foldl_cons]
    by_cases h1 : e.p1 ∈ enum ∧ e.p2 ∉ enum
    · rw [if_pos h1]
      by_cases hpk : e.p2 = k
      · have hk : k ∉ enum := hpk ▸ h1.2
        have hcl : contribList (e :: rest) enum k = e.score :: contribList rest enum k := by
          simp [contribList, List.filterMap_cons, h1.1, h1.2, hpk, hk]
        rw [hcl, ih (addScore acc e.p2 e.score) k]
        rw [addScore, hpk, lookup_upsert_self]
        cases hacc : acc.lookup k with
        | none => simp [List.sum_cons]
        | some v =>
          simp only [List.sum_cons, Option.some.injEq]
          omega
      · have hcl : contribList (e :: rest) enum k = contribList rest enum k := by
          simp only [contribList, List.filterMap_cons]
          rw [if_neg (fun hc => hpk hc.2.2), if_neg (fun hc => h1.2 hc.1)]
        rw [hcl, ih (addScore acc e.p2 e.score) k, addScore,
          lookup_upsert_ne _ _ _ _ _ (fun he => hpk he.symm)]
    · rw [if_neg h1]
      by_cases h2 : e.p2 ∈ enum ∧ e.p1 ∉ enum
      · rw [if_pos h2]
        by_cases hpk : e.p1 = k
        · have hcl : contribList (e :: rest) enum k = e.score :: contribList rest enum k := by
            simp only [contribList, List.filterMap_cons]
            rw [if_neg (fun hc => h1 ⟨hc.1, hc.2.1⟩), if_pos ⟨h2.1, h2.2, hpk⟩]
          rw [hcl, ih (addScore acc e.p1 e.score) k]
          rw [addScore, hpk, lookup_upsert_self]
          cases hacc : acc.lookup k with
          | none => simp [List.sum_cons]
          | some v =>
            simp only [List.sum_cons, Option.some.injEq]
            omega
        · have hcl : contribList (e :: rest) enum k = contribList rest enum k := by
            simp only [contribList, List.filterMap_cons]
            rw [if_neg (fun hc => h1 ⟨hc.1, hc.2.1⟩), if_neg (fun hc => hpk hc.2.2)]
          rw [hcl, ih (addScore acc e.p1 e.score) k, addScore,
            lookup_upsert_ne _ _ _ _ _ (fun he => hpk he.symm)]
      · rw [if_neg h2]
        have hcl : contribList (e :: rest) enum k = contribList rest enum k := by
          simp only [contribList, List.filterMap_cons]
          rw [if_neg (fun hc => h1 ⟨hc.1, hc.2.1⟩), if_neg (fun hc => h2 ⟨hc.1, hc.2.1⟩)]
        rw [hcl, ih acc k]

theorem neighborScores_lookup (enum : List String) (adj : List Edge) (k : String) :
    (neighborScores enum adj).lookup k =
      if contribList adj enum k = [] then none
      else some (contribList adj enum k).sum := by
  rw [neighborScores, neighborScores_go enum adj [] k]
  rfl

/-- A binding of the neighbor-score dict holds exactly the sum of the
contributions credited to its key, and a key is present exactly when it
has at least one contribution. -/
theorem neighborScores_mem_iff (enum : List String) (adj : List Edge) (k : String)
    (v : Int) :
    (k, v) ∈ neighborScores enum adj ↔
      contribList adj enum k ≠ [] ∧ v = (contribList adj enum k).sum := by
  rw [mem_iff_lookup _ (neighborScores_keys_nodup enum adj), neighborScores_lookup]
  by_cases hc : contribList adj enum k = [] <;> simp [hc, eq_comm]

theorem contribList_congr (adj : List Edge) (l1 l2 : List String)
    (h : ∀ x, x ∈ l1 ↔ x ∈ l2) (k : String) :
    contribList adj l1 k = contribList adj l2 k := by
  simp only [contribList, h]

/-- The part of the `expand_1hop` node list after the seeds: the admitted
neighbors. -/
def admittedOf (edges : List Edge) (seed_ids : List String) (score_thr_int : Int)
    (max_nodes : Nat) (enum : List String) : List String :=
  (expand_1hop edges seed_ids score_thr_int max_nodes enum).1.drop enum.length

/-- The accumulated score that `expand_1hop` ranks the node `k` by. -/
def neighborTotal (edges : List Edge) (score_thr_int : Int) (enum : List String)
    (k : String) : Int :=
  (contribList (fetch_edges_adjacent edges enum score_thr_int) enum k).sum

/-- Node `k` receives at least one score contribution in `expand_1hop`,
i.e. it is a candidate neighbor. -/
def isNeighborCand (edges : List Edge) (score_thr_int : Int) (enum : List String)
    (k : String) : Prop :=
  contribList (fetch_edges_adjacent edges enum score_thr_int) enum k ≠ []

/-- Structure of the `expand_1hop` node list: the seed enumeration is a
prefix; the rest (the admitted neighbors) are duplicate-free non-seed
candidates listed in strictly descending rank order (descending total
score, ties by ascending id), there are at most `max_nodes - len(seeds)`
of them, and any candidate left out is strictly outranked by every
admitted one — in which case the budget was filled exactly. -/
theorem expand_1hop_spec (edges : List Edge) (seed_ids : List String) (t : Int)
    (mx : Nat) (enum : List String) :
    (expand_1hop edges seed_ids t mx enum).1.take enum.length = enum ∧
    (admittedOf edges seed_ids t mx enum).Nodup ∧
    (∀ x ∈ admittedOf edges seed_ids t mx enum, x ∉ enum ∧ isNeighborCand edges t enum x) ∧
    (admittedOf edges seed_ids t mx enum).Pairwise (fun a b =>
      neighborTotal edges t enum b < neighborTotal edges t enum a ∨
      (neighborTotal edges t enum a = neighborTotal edges t enum b ∧ a.data < b.data)) ∧
    (admittedOf edges seed_ids t mx enum).length ≤ mx - enum.length ∧
    (∀ k, isNeighborCand edges t enum k → k ∉ admittedOf edges seed_ids t mx enum →
      (∀ x ∈ admittedOf edges seed_ids t mx enum,
        neighborTotal edges t enum k < neighborTotal edges t enum x ∨
        (neighborTotal edges t enum x = neighborTotal edges t enum k ∧ x.data < k.data)) ∧
      (enum.length < mx → (admittedOf edges seed_ids t mx enum).length = mx - enum.length)) := by
  set adj := fetch_edges_adjacent edges enum t with hadj
  set ns := neighborScores enum adj with hns
  have hval : ∀ kv ∈ ns, kv.2 = (contribList adj enum kv.1).sum ∧
      contribList adj enum kv.1 ≠ [] := by
    intro kv hkv
    have := (neighborScores_mem_iff enum adj kv.1 kv.2).mp hkv
    exact ⟨this.2, this.1⟩
  by_cases h0 : enum = []
  · subst h0
    rw [admittedOf, expand_1hop_fst]
    simp only [if_pos rfl, List.take_nil, List.drop_nil, List.length_nil]
    refine ⟨rfl, List.nodup_nil, by simp, List.Pairwise.nil, by simp, ?_⟩
    intro k hcand
    exact absurd (by simp [contribList]) hcand
  · rw [admittedOf, expand_1hop_fst, if_neg h0]
    by_cases hg : enum.length < mx ∧ ns ≠ []
    · rw [if_pos hg]
      set sorted := ns.insertionSort rankLE with hsorted
      set remain := mx - enum.length with hremain
      have sperm : List.Perm sorted ns := List.perm_insertionSort rankLE ns
      have ssorted : sorted.Pairwise rankLE := List.sorted_insertionSort rankLE ns
      have skeys : (sorted.map Prod.fst).Nodup :=
        ((sperm.map Prod.fst).nodup_iff).mpr (neighborScores_keys_nodup enum adj)
      have smem : ∀ kv, kv ∈ sorted ↔ kv ∈ ns := fun kv => sperm.mem_iff
      set adm := ((sorted.take remain).map Prod.fst) with hadm
      have hdrop : (enum ++ adm).drop enum.length = adm := List.drop_left enum adm
      have htake : (enum ++ adm).take enum.length = enum := List.take_left enum adm
      have admkeys : adm.Nodup := by
        rw [hadm, List.map_take]
        exact (List.take_sublist _ _).nodup skeys
      have stp : sorted.Pairwise rankLE := ssorted
      have hca : (sorted.take remain ++ sorted.drop remain).Pairwise rankLE := by
        rw [List.take_append_drop]
        exact ssorted
      have hcross : ∀ a ∈ sorted.take remain, ∀ b ∈ sorted.drop remain, rankLE a b :=
        (List.pairwise_append.mp hca).2.2
      have hmem_take : ∀ kv ∈ sorted.take remain, kv ∈ ns := fun kv hkv =>
        (smem kv).mp ((List.take_sublist _ _).mem hkv)
      have hadm_val : ∀ x ∈ adm, ∃ kv ∈ sorted.take remain, kv.1 = x ∧
          kv.2 = neighborTotal edges t enum x ∧ isNeighborCand edges t enum x := by
        intro x hx
        obtain ⟨kv, hkv, he⟩ := List.mem_map.mp hx
        obtain ⟨hv, hne⟩ := hval kv (hmem_take kv hkv)
        exact ⟨kv, hkv, he, by rw [← he]; exact hv, by rw [← he]; exact hne⟩
      refine ⟨htake, by rwa [hdrop], ?_, ?_, ?_, ?_⟩
      · intro x hx
        rw [hdrop] at hx
        obtain ⟨kv, hkv, hke, _, hcand⟩ := hadm_val x hx
        constructor
        · rw [← hke]
          exact neighborScores_keys_not_seed enum adj kv (hmem_take kv hkv)
        · exact hcand
      · rw [hdrop, hadm, List.pairwise_map]
        have hpw : (sorted.take remain).Pairwise rankLE :=
          List.Pairwise.sublist (List.take_sublist _ _) stp
        have hkeyspw : (sorted.take remain).Pairwise (fun a b => a.1 ≠ b.1) := by
          have := admkeys
          rw [hadm, List.map_take] at this
          rw [← List.map_take] at this
          exact List.pairwise_map.mp this
        refine List.Pairwise.imp_of_mem ?_ (hpw.and hkeyspw)
        intro a b ha hb hab
        obtain ⟨hva, hna⟩ := hval a (hmem_take a ha)
        obtain ⟨hvb, hnb⟩ := hval b (hmem_take b hb)
        have hta : neighborTotal edges t enum a.1 = a.2 := hva.symm
        have htb : neighborTotal edges t enum b.1 = b.2 := hvb.symm
        rcases hab.1 with hr | ⟨hr, hrle⟩
        · left
          rw [hta, htb]
          exact hr
        · right
          refine ⟨by rw [hta, htb]; exact hr, ?_⟩
          rcases lt_or_eq_of_le hrle with hlt | heq
          · exact hlt
          · exact absurd (by apply String.ext; exact heq) hab.2
      · rw [hdrop, hadm, List.length_map, List.length_take]
        omega
      · intro k hcand hkadm
        rw [hdrop] at hkadm
        have hkns : (k, (contribList adj enum k).sum) ∈ ns :=
          (neighborScores_mem_iff enum adj k _).mpr ⟨hcand, rfl⟩
        have hksorted : (k, (contribList adj enum k).sum) ∈ sorted :=
          (smem _).mpr hkns
        have hksplit : (k, (contribList adj enum k).sum) ∈
            sorted.take remain ++ sorted.drop remain := by
          rw [List.take_append_drop]
          exact hksorted
        have hkdrop : (k, (contribList adj enum k).sum) ∈ sorted.drop remain := by
          rcases List.mem_append.mp hksplit with hin | hin
          · refine absurd ?_ hkadm
            rw [hadm]
            exact List.mem_map_of_mem Prod.fst hin
          · exact hin
        have hkt : neighborTotal edges t enum k = (contribList adj enum k).sum := rfl
        constructor
        · intro x hx
          rw [hdrop] at hx
          obtain ⟨kv, hkv, hke, hkvv, _⟩ := hadm_val x hx
          have hr := hcross kv hkv _ hkdrop
          have hxk : x ≠ k := by
            intro heq
            rw [heq] at hx
            exact hkadm hx
          rcases hr with hr | ⟨hr, hrle⟩
          · left
            rw [hkt, ← hkvv]
            exact hr
          · right
            constructor
            · rw [hkt, ← hkvv]
              exact hr
            · have hxd : kv.1.data ≤ k.data := hrle
              rw [← hke]
              rcases lt_or_eq_of_le hxd with hlt | heq
              · exact hlt
              · refine absurd (String.ext heq) ?_
                rw [hke]
                exact hxk
        · intro _
          have hdne : sorted.drop remain ≠ [] := by
            intro hnil
            rw [hnil] at hkdrop
            simp at hkdrop
          have hlen : remain < sorted.length := by
            by_contra hge
            rw [List.drop_eq_nil_of_le (by omega)] at hdne
            exact hdne rfl
          rw [hdrop, hadm, List.length_map, List.length_take]
          omega
    · rw [if_neg hg]
      have htake : (enum : List String).take enum.length = enum := List.take_length ..
      have hdrop : (enum : List String).drop enum.length = [] := List.drop_length ..
      refine ⟨htake, by rw [hdrop]; exact List.nodup_nil, ?_, ?_, ?_, ?_⟩
      · intro x hx
        rw [hdrop] at hx
        simp at hx
      · rw [hdrop]
        exact List.Pairwise.nil
      · rw [hdrop]
        simp
      · intro k hcand hkadm
        constructor
        · intro x hx
          rw [hdrop] at hx
          simp at hx
        · intro hlt
          exfalso
          apply hg
          refine ⟨hlt, ?_⟩
          intro hnse
          have : (k, (contribList adj enum k).sum) ∈ ns :=
            (neighborScores_mem_iff enum adj k _).mpr ⟨hcand, rfl⟩
          rw [hnse] at this
          simp at this

/-- Counterexample to claim C1 as stated: three distinct seeds with
`max_nodes = 2` make `expand_1hop` return all three seed nodes, exceeding
the budget (the identity enumeration is a valid set iteration order). -/
theorem expand_1hop_budget_counterexample :
    SetEnum ["A", "B", "C"] ["A", "B", "C"] ∧
    ¬ ((expand_1hop [] ["A", "B", "C"] 0 2 ["A", "B", "C"]).1.length ≤ 2) :=
  ⟨by decide, by decide⟩

/-- Claim C1 (amended): the `expand_1hop` node list has length at most
`max(number of distinct seeds, max_nodes)`; in particular the `max_nodes`
bound holds whenever the distinct seed count does not exceed it.  When the
distinct seeds alone exceed the budget they are all returned, and only the
caller's hard truncation restores the bound. -/
theorem expand_1hop_node_budget (edges : List Edge) (seed_ids : List String)
    (score_thr_int : Int) (max_nodes : Nat) (enum : List String)
    (he : SetEnum seed_ids enum) :
    (expand_1hop edges seed_ids score_thr_int max_nodes enum).1.length ≤
      max enum.length max_nodes := by
  rw [expand_1hop_fst]
  by_cases h0 : enum = []
  · simp [h0]
  · rw [if_neg h0]
    by_cases hg : enum.length < max_nodes ∧
        neighborScores enum (fetch_edges_adjacent edges enum score_thr_int) ≠ []
    · rw [if_pos hg]
      rw [List.length_append, List.length_map, List.length_take]
      have := hg.1
      omega
    · rw [if_neg hg]
      exact le_max_left _ _

/-- Witness for the amended C1 at a concrete input. -/
theorem expand_1hop_node_budget_witness :
    SetEnum ["A"] ["A"] ∧
    (expand_1hop [⟨"A", "B", 500⟩] ["A"] 0 5 ["A"]).1.length ≤
      max (["A"] : List String).length 5 :=
  ⟨by decide, expand_1hop_node_budget [⟨"A", "B", 500⟩] ["A"] 0 5 ["A"] (by decide)⟩

/-- Counterexample to claim C2 as stated: the seeds appear in the set's
iteration order, which need not be the input's first-occurrence order.
The enumeration ["B", "A"] is a valid iteration order of set(["A", "B"]);
with no stored edges the claim as stated would force the node list
["A", "B"]. -/
theorem expand_1hop_seed_order_counterexample :
    SetEnum ["A", "B"] ["B", "A"] ∧
    (expand_1hop [] ["A", "B"] 0 10 ["B", "A"]).1 ≠ ["A", "B"] :=
  ⟨by decide, by decide⟩

/-- Claim C2 (amended): the `expand_1hop` node list is the set enumeration
of the distinct seeds (in set iteration order, not necessarily input
order) followed by the admitted neighbors — none of which is a seed — in
rank order: descending accumulated score, ties by ascending identifier. -/
theorem expand_1hop_layout (edges : List Edge) (seed_ids : List String) (t : Int)
    (mx : Nat) (enum : List String) (he : SetEnum seed_ids enum) :
    (expand_1hop edges seed_ids t mx enum).1 =
      enum ++ admittedOf edges seed_ids t mx enum ∧
    (∀ x ∈ admittedOf edges seed_ids t mx enum, x ∉ seed_ids) ∧
    (admittedOf edges seed_ids t mx enum).Pairwise (fun a b =>
      neighborTotal edges t enum b < neighborTotal edges t enum a ∨
      (neighborTotal edges t enum a = neighborTotal edges t enum b ∧ a.data < b.data)) := by
  obtain ⟨ht, _, hmem, hpw, _, _⟩ := expand_1hop_spec edges seed_ids t mx enum
  refine ⟨?_, ?_, hpw⟩
  · conv_lhs =>
      rw [← List.take_append_drop enum.length (expand_1hop edges seed_ids t mx enum).1]
    rw [ht]
    rfl
  · intro x hx hxs
    exact (hmem x hx).1 (he.2.2 x hxs)

/-- Witness for the amended C2 at a concrete input with two rankable
neighbors. -/
theorem expand_1hop_layout_witness :
    SetEnum ["A"] ["A"] ∧
    ((expand_1hop [⟨"A", "N1", 500⟩, ⟨"A", "N2", 900⟩] ["A"] 0 10 ["A"]).1 =
      ["A"] ++ admittedOf [⟨"A", "N1", 500⟩, ⟨"A", "N2", 900⟩] ["A"] 0 10 ["A"] ∧
    (∀ x ∈ admittedOf [⟨"A", "N1", 500⟩, ⟨"A", "N2", 900⟩] ["A"] 0 10 ["A"],
      x ∉ ["A"]) ∧
    (admittedOf [⟨"A", "N1", 500⟩, ⟨"A", "N2", 900⟩] ["A"] 0 10 ["A"]).Pairwise
      (fun a b =>
        neighborTotal [⟨"A", "N1", 500⟩, ⟨"A", "N2", 900⟩] 0 ["A"] b <
          neighborTotal [⟨"A", "N1", 500⟩, ⟨"A", "N2", 900⟩] 0 ["A"] a ∨
        (neighborTotal [⟨"A", "N1", 500⟩, ⟨"A", "N2", 900⟩] 0 ["A"] a =
          neighborTotal [⟨"A", "N1", 500⟩, ⟨"A", "N2", 900⟩] 0 ["A"] b ∧
          a.data < b.data))) :=
  ⟨by decide,
    expand_1hop_layout [⟨"A", "N1", 500⟩, ⟨"A", "N2", 900⟩] ["A"] 0 10 ["A"] (by decide)⟩

/-- Claim C8: candidate neighbors are ranked by descending accumulated
score with ties broken by ascending identifier (the lexicographically
smaller id admitted first), and exactly the top `max_nodes - len(seeds)`
are admitted: at most that many, every admitted candidate strictly
outranks every excluded one, and when a candidate is excluded while the
seed count is below the budget, the budget is filled exactly. -/
theorem expand_1hop_ranking (edges : List Edge) (seed_ids : List String) (t : Int)
    (mx : Nat) (enum : List String) (hs : seed_ids.Nodup) (he : SetEnum seed_ids enum) :
    (admittedOf edges seed_ids t mx enum).Pairwise (fun a b =>
      neighborTotal edges t enum b < neighborTotal edges t enum a ∨
      (neighborTotal edges t enum a = neighborTotal edges t enum b ∧ a.data < b.data)) ∧
    (∀ x ∈ admittedOf edges seed_ids t mx enum, isNeighborCand edges t enum x) ∧
    (admittedOf edges seed_ids t mx enum).length ≤ mx - seed_ids.length ∧
    (∀ k, isNeighborCand edges t enum k → k ∉ admittedOf edges seed_ids t mx enum →
      (∀ x ∈ admittedOf edges seed_ids t mx enum,
        neighborTotal edges t enum k < neighborTotal edges t enum x ∨
        (neighborTotal edges t enum x = neighborTotal edges t enum k ∧ x.data < k.data)) ∧
      (seed_ids.length < mx →
        (admittedOf edges seed_ids t mx enum).length = mx - seed_ids.length)) := by
  have hlen : enum.length = seed_ids.length :=
    ((List.perm_ext_iff_of_nodup he.1 hs).mpr
      (fun a => ⟨fun h => he.2.1 a h, fun h => he.2.2 a h⟩)).length_eq
  obtain ⟨_, _, hmem, hpw, hle, htop⟩ := expand_1hop_spec edges seed_ids t mx enum
  refine ⟨hpw, fun x hx => (hmem x hx).2, by rw [← hlen]; exact hle, ?_⟩
  intro k hc hk
  obtain ⟨hdom, hexact⟩ := htop k hc hk
  refine ⟨hdom, ?_⟩
  intro hlt
  rw [← hlen]
  exact hexact (by rw [hlen]; exact hlt)

/-- Witness for C8 at a concrete input with a score tie ("N1" and "N2"
both total 500, budget for one): the theorem applies. -/
theorem expand_1hop_ranking_witness :
    (["A"] : List String).Nodup ∧ SetEnum ["A"] ["A"] ∧
    ((admittedOf [⟨"A", "N1", 500⟩, ⟨"A", "N2", 500⟩] ["A"] 0 2 ["A"]).length ≤
      2 - (["A"] : List String).length) :=
  ⟨by decide, by decide,
    (expand_1hop_ranking [⟨"A", "N1", 500⟩, ⟨"A", "N2", 500⟩] ["A"] 0 2 ["A"]
      (by decide) (by decide)).2.2.1⟩

/-- Claim C10: the `expand_1hop` node list contains no duplicate
identifiers — the seeds are deduplicated, admitted neighbors are pairwise
distinct, and no admitted neighbor is a seed. -/
theorem expand_1hop_nodes_nodup (edges : List Edge) (seed_ids : List String) (t : Int)
    (mx : Nat) (enum : List String) (he : SetEnum seed_ids enum) :
    (expand_1hop edges seed_ids t mx enum).1.Nodup ∧
    ∀ x ∈ admittedOf edges seed_ids t mx enum, x ∉ seed_ids := by
  obtain ⟨ht, hnd, hmem, _, _, _⟩ := expand_1hop_spec edges seed_ids t mx enum
  constructor
  · have hsplit : (expand_1hop edges seed_ids t mx enum).1 =
        enum ++ admittedOf edges seed_ids t mx enum := by
      conv_lhs =>
        rw [← List.take_append_drop enum.length (expand_1hop edges seed_ids t mx enum).1]
      rw [ht]
      rfl
    rw [hsplit]
    refine List.Nodup.append he.1 hnd ?_
    intro x hx1 hx2
    exact (hmem x hx2).1 hx1
  · intro x hx hxs
    exact (hmem x hx).1 (he.2.2 x hxs)

/-- Witness for C10 at a concrete input where a neighbor is adjacent to
two seeds (it must still appear only once). -/
theorem expand_1hop_nodes_nodup_witness :
    SetEnum ["A", "B"] ["A", "B"] ∧
    (expand_1hop [⟨"A", "N", 500⟩, ⟨"B", "N", 700⟩] ["A", "B"] 0 10 ["A", "B"]).1.Nodup :=
  ⟨by decide,
    (expand_1hop_nodes_nodup [⟨"A", "N", 500⟩, ⟨"B", "N", 700⟩] ["A", "B"] 0 10
      ["A", "B"] (by decide)).1⟩

/-- The dict assignment `attrs[pid] = {...}` in `get_node_attributes`. -/
def setKV (acc : List (String × String)) (k v : String) : List (String × String) :=
  upsert acc k (fun _ => v) v

/-- Python `row["preferred_name"] or row["protein_id"]`: a NULL or empty
(falsy) preferred name falls back to the id. -/
def orFallback (name : Option String) (pid : String) : String :=
  match name with
  | some s => if s = "" then pid else s
  | none => pid

/-- Function `get_node_attributes` of `app/db.py`: batched lookup of
preferred names over 900-sized chunks of the requested ids (rows in
storage order), storing `preferred_name or protein_id` per returned row,
then a fallback pass adding `pid -> pid` for every requested id still
absent from the dict. -/
def get_node_attributes (proteins : List ProteinRow) (protein_ids : List String) :
    List (String × String) :=
  if protein_ids = [] then []
  else
    let fetched := (chunked protein_ids 900).flatMap (fun chunk =>
      proteins.filter (fun p => decide (p.protein_id ∈ chunk)))
    let attrs := fetched.foldl
      (fun acc p => setKV acc p.protein_id (orFallback p.preferred_name p.protein_id)) []
    protein_ids.foldl
      (fun acc pid => if (acc.lookup pid).isSome then acc else acc ++ [(pid, pid)]) attrs

theorem lookup_append {κ ν : Type} [BEq κ] (l1 l2 : List (κ × ν)) (k : κ) :
    (l1 ++ l2).lookup k = ((l1.lookup k).or (l2.lookup k)) := by
  induction l1 with
  | nil => simp [List.lookup]
  | cons kv rest ih =>
    obtain ⟨k0, v0⟩ := kv
    cases hk : k == k0 <;> simp [List.lookup, hk, ih]

theorem fallback_preserve (l : List String) :
    ∀ (acc : List (String × String)) (k : String) (v : String),
      acc.lookup k = some v →
      (l.foldl (fun acc pid =>
        if (acc.lookup pid).isSome then acc else acc ++ [(pid, pid)]) acc).lookup k =
        some v := by
  induction l with
  | nil => intro acc k v h; exact h
  | cons x rest ih =>
    intro acc k v h
    simp only [List.foldl_cons]
    by_cases hx : (acc.lookup x).isSome
    · rw [if_pos hx]
      exact ih acc k v h
    · rw [if_neg hx]
      apply ih
      rw [lookup_append, h]
      rfl

theorem fallback_value (l : List String) :
    ∀ (acc : List (String × String)) (k : String), k ∈ l → acc.lookup k = none →
      (l.foldl (fun acc pid =>
        if (acc.lookup pid).isSome then acc else acc ++ [(pid, pid)]) acc).lookup k =
        some k := by
  induction l with
  | nil => intro acc k hk; simp at hk
  | cons x rest ih =>
    intro acc k hk hnone
    simp only [List.foldl_cons]
    by_cases hxk : x = k
    · subst hxk
      rw [if_neg (by rw [hnone]; simp)]
      apply fallback_preserve
      rw [lookup_append, hnone, List.lookup]
      simp
    · have hkr : k ∈ rest := by
        rcases List.mem_cons.mp hk with he | hm
        · exact absurd he.symm hxk
        · exact hm
      by_cases hx : (acc.lookup x).isSome
      · rw [if_pos hx]
        exact ih acc k hkr hnone
      · rw [if_neg hx]
        apply ih _ k hkr
        rw [lookup_append, hnone]
        have : ([(x, x)] : List (String × String)).lookup k = none := by
          have : ¬(k == x) := by
            simp only [beq_iff_eq]
            exact fun he => hxk he.symm
          simp [List.lookup, this]
        rw [this]
        rfl

theorem setKV_fold_source (l : List ProteinRow) :
    ∀ (acc : List (String × String)) (k v : String),
      (l.foldl (fun acc p =>
        setKV acc p.protein_id (orFallback p.preferred_name p.protein_id)) acc).lookup k =
        some v →
      acc.lookup k = some v ∨ ∃ p ∈ l, p.protein_id = k := by
  induction l with
  | nil => intro acc k v h; exact Or.inl h
  | cons p rest ih =>
    intro acc k v h
    simp only [List.foldl_cons] at h
    rcases ih _ k v h with hl | ⟨p2, hp2, hpk⟩
    · by_cases hk : p.protein_id = k
      · exact Or.inr ⟨p, List.mem_cons_self p rest, hk⟩
      · rw [setKV, lookup_upsert_ne _ _ _ _ _ (fun he => hk he.symm)] at hl
        exact Or.inl hl
    · exact Or.inr ⟨p2, List.mem_cons_of_mem p hp2, hpk⟩

/-- Claim C9: the attribute map contains an entry for every requested id,
and a requested id matching no protein row gets the fallback display name
equal to the id itself; absence of records never fails (the mapping is
total on the requested ids). -/
theorem get_node_attributes_total (proteins : List ProteinRow)
    (protein_ids : List String) (pid : String) (hpid : pid ∈ protein_ids) :
    ∃ v, (get_node_attributes proteins protein_ids).lookup pid = some v ∧
      ((∀ p ∈ proteins, p.protein_id ≠ pid) → v = pid) := by
  have hne : protein_ids ≠ [] := by
    intro h
    rw [h] at hpid
    simp at hpid
  rw [get_node_attributes, if_neg hne]
  set fetched := (chunked protein_ids 900).flatMap (fun chunk =>
    proteins.filter (fun p => decide (p.protein_id ∈ chunk))) with hfetched
  set attrs := fetched.foldl
    (fun acc p => setKV acc p.protein_id (orFallback p.preferred_name p.protein_id)) []
    with hattrs
  cases hl : attrs.lookup pid with
  | some v =>
    refine ⟨v, fallback_preserve protein_ids attrs pid v hl, ?_⟩
    intro hnop
    exfalso
    rcases setKV_fold_source fetched [] pid v hl with hnil | ⟨p, hp, hpk⟩
    · simp [List.lookup] at hnil
    · have hp2 : p ∈ proteins := by
        rw [hfetched] at hp
        obtain ⟨chunk, _, hmem⟩ := List.mem_flatMap.mp hp
        exact List.mem_of_mem_filter hmem
      exact hnop p hp2 hpk
  | none =>
    exact ⟨pid, fallback_value protein_ids attrs pid hpid hl, fun _ => rfl⟩

/-- Witness for C9 at a concrete input: one requested id has a protein
row, the other does not and gets the fallback name. -/
theorem get_node_attributes_total_witness :
    "Q" ∈ (["P", "Q"] : List String) ∧
    ∃ v, (get_node_attributes [⟨"P", some "name"⟩] ["P", "Q"]).lookup "Q" = some v ∧
      ((∀ p ∈ ([⟨"P", some "name"⟩] : List ProteinRow), p.protein_id ≠ "Q") → v = "Q") :=
  ⟨by decide, get_node_attributes_total [⟨"P", some "name"⟩] ["P", "Q"] "Q" (by decide)⟩

end STRINGApp
